import Mathlib

/-!
Verification of the realtime-canvas authority (src/server/src/server.ts) and
the client replica's begin-stroke reconciliation (src/client/src/main.ts),
as a shallow embedding: room state is explicit, each handling turn is a pure
function from state and message to state and outbound events.
-/

set_option linter.unusedVariables false

namespace RealtimeCanvas

/-- A protocol point: canvas coordinates plus a capture timestamp.  The server
never computes on coordinates — it only stores and forwards them — so the
JavaScript number fields are modelled as integers. -/
structure Point where
  x : Int
  y : Int
  t : Int
deriving DecidableEq, Repr

/-- Tool domain: pen or eraser. -/
inductive Tool where
  | pen
  | eraser
deriving DecidableEq, Repr

/-- Stroke record from server.ts.  The optional field removed?: boolean is
modelled as a Bool that is false when the field is absent, which is exactly how
the guard !st.removed reads it. -/
structure Stroke where
  id : String
  userId : String
  color : String
  size : Int
  tool : Tool
  points : List Point
  removed : Bool := false
deriving DecidableEq, Repr

/-- Room state.  userStacks : Record<string, string[]> is modelled as an
association list; each user's stack is stored most-recent-first (the
JavaScript array pushes and pops at its end, this list at its head). -/
structure RoomState where
  strokes : List Stroke
  userStacks : List (String × List String)
deriving DecidableEq, Repr

/-- The state a room is created with in getRoom. -/
def emptyRoom : RoomState := { strokes := [], userStacks := [] }

/-- Read state.userStacks[u], defaulting a missing binding to the empty stack
(the way both the undo read and the push read treat it). -/
def lookupStack (m : List (String × List String)) (u : String) : List String :=
  match m.find? (fun p => p.1 == u) with
  | some p => p.2
  | none => []

/-- Store a stack under a user key: overwrite the existing binding, or create
one at the end (JavaScript record insertion order). -/
def setStack : List (String × List String) → String → List String → List (String × List String)
  | [], u, v => [(u, v)]
  | p :: rest, u, v => if p.1 == u then (u, v) :: rest else p :: setStack rest u v

/-- The begin and redo push: create the binding when absent, then push the id
onto that user's stack. -/
def pushStack (m : List (String × List String)) (u : String) (i : String) :
    List (String × List String) :=
  setStack m u (i :: lookupStack m u)

/-- Outbound event payloads (authority to clients). -/
inductive Event where
  | beginStrokeEv (s : Stroke)
  | addPointsEv (strokeId : String) (points : List Point)
  | endStrokeEv (strokeId : String)
  | removeStrokeEv (strokeId : String)
  | restoreStrokeEv (s : Stroke)
  | clearEv
deriving DecidableEq, Repr

/-- How one handling turn sends an event out: broadcast with no exclusion,
broadcast excluding the sending connection, or a direct ws.send back to the
sender. -/
inductive Out where
  | toAll (e : Event)
  | toOthers (e : Event)
  | directBack (e : Event)
deriving DecidableEq, Repr

/-- Inbound room-mutating messages: the Msg union minus join_room and cursor,
which never touch RoomState.  begin_stroke calls crypto.randomUUID(); the id
that call returns is supplied here as the freshId oracle argument. -/
inductive Cmd where
  | beginStroke (color : String) (size : Int) (tool : Tool) (freshId : String)
  | addPoints (strokeId : String) (points : List Point)
  | endStroke (strokeId : String)
  | undo (userId : String)
  | redo (userId : String)
  | clear
deriving DecidableEq, Repr

/-- The undo body's state.strokes.find(st => st.id === id && !st.removed)
followed by s.removed = true on the found object: flip the first live stroke
carrying this id. -/
def markRemoved : List Stroke → String → List Stroke
  | [], _ => []
  | s :: rest, i =>
    if s.id == i && !s.removed then { s with removed := true } :: rest
    else s :: markRemoved rest i

/-- The mutation redo performs on the reversed stroke array: flip the first
removed stroke of this user back to live. -/
def markRestored : List Stroke → String → List Stroke
  | [], _ => []
  | s :: rest, u =>
    if s.userId == u && s.removed then { s with removed := false } :: rest
    else s :: markRestored rest u

/-- The add_points mutation s.points.push(...pts) on the first live stroke
with this id; pts is the already-truncated batch. -/
def addPointsTo : List Stroke → String → List Point → List Stroke
  | [], _, _ => []
  | s :: rest, i, ps =>
    if s.id == i && !s.removed then { s with points := s.points ++ ps } :: rest
    else s :: addPointsTo rest i ps

/-- The while (stack.length) loop of undo: pop until a popped id names a live
stroke; tombstone that stroke and report its id, or exhaust the stack.
Returns the strokes, what is left of the stack, and the removed id if any. -/
def undoLoop (strokes : List Stroke) : List String → List Stroke × List String × Option String
  | [] => (strokes, [], none)
  | i :: rest =>
    if (strokes.find? (fun st => st.id == i && !st.removed)).isSome then
      (markRemoved strokes i, rest, some i)
    else undoLoop strokes rest

/-- The identity the server attached to the sending connection. -/
structure Sender where
  cid : Nat
  uid : String
deriving DecidableEq, Repr

/-- One handling turn of the authority (the message switch in server.ts):
apply the message to the room state and derive the outbound events of that
turn, in send order. -/
def handle (st : RoomState) (sn : Sender) : Cmd → RoomState × List Out
  | .beginStroke color size tool freshId =>
    let s : Stroke :=
      { id := freshId
        userId := sn.uid
        color := color
        size := size
        tool := tool
        points := [] }
    ({ strokes := st.strokes ++ [s]
       userStacks := pushStack st.userStacks s.userId freshId },
     [.toAll (.beginStrokeEv { s with points := [] }),
      .directBack (.beginStrokeEv { s with points := [] })])
  | .addPoints strokeId points =>
    match st.strokes.find? (fun s => s.id == strokeId && !s.removed) with
    | none => (st, [])
    | some s =>
      let pts := points.take 200
      ({ st with strokes := addPointsTo st.strokes strokeId pts },
       [.toOthers (.addPointsEv s.id pts)])
  | .endStroke strokeId => (st, [.toOthers (.endStrokeEv strokeId)])
  | .undo userId =>
    match st.userStacks.find? (fun p => p.1 == userId) with
    | none => (st, [])
    | some p =>
      let r := undoLoop st.strokes p.2
      ({ strokes := r.1
         userStacks := setStack st.userStacks userId r.2.1 },
       match r.2.2 with
       | some i => [.toAll (.removeStrokeEv i)]
       | none => [])
  | .redo userId =>
    match st.strokes.reverse.find? (fun s2 => s2.userId == userId && s2.removed) with
    | none => (st, [])
    | some s =>
      ({ strokes := (markRestored st.strokes.reverse userId).reverse
         userStacks := pushStack st.userStacks userId s.id },
       [.toAll (.restoreStrokeEv { s with removed := false })])
  | .clear =>
    ({ strokes := []
       userStacks := [] }, [.toAll .clearEv])

/-- Process a sequence of inbound messages in authority order, concatenating
the events each turn derives. -/
def handleRun : RoomState → List (Sender × Cmd) → RoomState × List Out
  | st, [] => (st, [])
  | st, (sn, m) :: ms =>
    let r := handle st sn m
    let rest := handleRun r.1 ms
    (rest.1, r.2 ++ rest.2)

/-- A server-side view of one websocket connection. -/
structure Conn where
  cid : Nat
  room : String
  userId : String
  isOpen : Bool
deriving DecidableEq, Repr

/-- Whether the fan-out of one outbound item of a turn reaches connection c,
the turn having handled a message from connection senderCid attached to room
room: broadcast checks OPEN, room match and client !== except, while the
direct ws.send goes to the sender object itself. -/
def receives (room : String) (senderCid : Nat) (c : Conn) : Out → Bool
  | .toAll _ => c.isOpen && c.room == room
  | .toOthers _ => c.isOpen && c.room == room && c.cid != senderCid
  | .directBack _ => c.cid == senderCid

/-- How many copies out of the outbound items of one turn reach connection c. -/
def copiesTo (room : String) (senderCid : Nat) (outs : List Out) (c : Conn) : Nat :=
  (outs.filter (receives room senderCid c)).length

/-- Client-side replica state of src/client/src/main.ts that the begin_stroke
handler touches. -/
structure ClientState where
  strokes : List Stroke
  drawing : Bool
  currentId : Option String
  pendingPoints : List Point
  localTempStroke : Option Stroke
deriving DecidableEq, Repr

/-- The client's begin_stroke message handler: push a fresh mirror entry with
empty points; when it is this client's own pending stroke, bind the canonical
id, merge the buffered points into the just-pushed mirror object, send them as
one add_points message under the canonical id, and drop the temp stroke.
Returns the new state and the (strokeId, points) messages sent. -/
def clientBeginStroke (myUserId : String) (cs : ClientState) (ev : Stroke) :
    ClientState × List (String × List Point) :=
  let s : Stroke := { ev with points := [] }
  if ev.userId == myUserId && cs.drawing && cs.currentId.isNone then
    if cs.pendingPoints.isEmpty then
      ({ cs with
         strokes := cs.strokes ++ [s]
         currentId := some s.id
         localTempStroke := none }, [])
    else
      ({ cs with
         strokes := cs.strokes ++ [{ s with points := cs.pendingPoints }]
         currentId := some s.id
         pendingPoints := []
         localTempStroke := none },
       [(s.id, cs.pendingPoints)])
  else
    ({ cs with strokes := cs.strokes ++ [s] }, [])

/-! ### Helper lemmas about list search and the in-place mutations -/

/-- A successful find? splits the list into a prefix of non-matches, the hit,
and a suffix. -/
theorem find?_split {α} (p : α → Bool) :
    ∀ {l : List α} {a : α}, l.find? p = some a →
      ∃ l1 l2, l = l1 ++ a :: l2 ∧ (∀ x ∈ l1, p x = false) ∧ p a = true := by
  intro l
  induction l with
  | nil => intro a h; simp at h
  | cons b rest ih =>
    intro a h
    by_cases hb : p b
    · rw [List.find?_cons_of_pos rest hb] at h
      have hab : b = a := Option.some_inj.mp h
      exact ⟨[], rest, by simp [hab], by simp, by simp [← hab, hb]⟩
    · rw [List.find?_cons_of_neg rest hb] at h
      obtain ⟨l1, l2, hsplit, hpre, hp⟩ := ih h
      exact ⟨b :: l1, l2, by simp [hsplit], by
        intro x hx
        rcases List.mem_cons.mp hx with hx | hx
        · simpa [hx] using hb
        · exact hpre x hx, hp⟩

/-- Conversely, find? returns the element after a prefix of non-matches. -/
theorem find?_of_split {α} (p : α → Bool) (l1 : List α) (a : α) (l2 : List α)
    (h1 : ∀ x ∈ l1, p x = false) (h2 : p a = true) :
    (l1 ++ a :: l2).find? p = some a := by
  induction l1 with
  | nil => simpa using List.find?_cons_of_pos l2 h2
  | cons b rest ih =>
    have hb : p b = false := h1 b (by simp)
    simp only [List.cons_append]
    rw [List.find?_cons_of_neg (rest ++ a :: l2) (by simp [hb])]
    exact ih (fun x hx => h1 x (List.mem_cons_of_mem b hx))

/-- markRemoved flips exactly the first live stroke with the given id. -/
theorem markRemoved_split (i : String) (pre : List Stroke) (s : Stroke) (post : List Stroke)
    (hpre : ∀ x ∈ pre, (x.id == i && !x.removed) = false)
    (hs : (s.id == i && !s.removed) = true) :
    markRemoved (pre ++ s :: post) i = pre ++ { s with removed := true } :: post := by
  induction pre with
  | nil => simp [markRemoved, hs]
  | cons b rest ih =>
    have hb : (b.id == i && !b.removed) = false := hpre b (by simp)
    simp only [List.cons_append, markRemoved, hb]
    simp [ih (fun x hx => hpre x (List.mem_cons_of_mem b hx))]

/-- markRestored flips exactly the first removed stroke of the given user. -/
theorem markRestored_split (u : String) (pre : List Stroke) (s : Stroke) (post : List Stroke)
    (hpre : ∀ x ∈ pre, (x.userId == u && x.removed) = false)
    (hs : (s.userId == u && s.removed) = true) :
    markRestored (pre ++ s :: post) u = pre ++ { s with removed := false } :: post := by
  induction pre with
  | nil => simp [markRestored, hs]
  | cons b rest ih =>
    have hb : (b.userId == u && b.removed) = false := hpre b (by simp)
    simp only [List.cons_append, markRestored, hb]
    simp [ih (fun x hx => hpre x (List.mem_cons_of_mem b hx))]

/-- addPointsTo appends exactly to the first live stroke with the given id. -/
theorem addPointsTo_split (i : String) (ps : List Point) (pre : List Stroke) (s : Stroke)
    (post : List Stroke)
    (hpre : ∀ x ∈ pre, (x.id == i && !x.removed) = false)
    (hs : (s.id == i && !s.removed) = true) :
    addPointsTo (pre ++ s :: post) i ps = pre ++ { s with points := s.points ++ ps } :: post := by
  induction pre with
  | nil => simp [addPointsTo, hs]
  | cons b rest ih =>
    have hb : (b.id == i && !b.removed) = false := hpre b (by simp)
    simp only [List.cons_append, addPointsTo, hb]
    simp [ih (fun x hx => hpre x (List.mem_cons_of_mem b hx))]

/-! ### Helper lemmas about the user-stack table -/

theorem find?_setStack (m : List (String × List String)) (u : String) (v : List String) :
    (setStack m u v).find? (fun p => p.1 == u) = some (u, v) := by
  induction m with
  | nil => simp [setStack]
  | cons p rest ih =>
    by_cases hp : p.1 = u
    · simp [setStack, hp]
    · simp only [setStack, beq_iff_eq, hp, if_false]
      rw [List.find?_cons_of_neg _ (by simp [hp])]
      exact ih

theorem lookupStack_setStack_self (m : List (String × List String)) (u : String)
    (v : List String) : lookupStack (setStack m u v) u = v := by
  simp [lookupStack, find?_setStack]

theorem setStack_find?_ne (m : List (String × List String)) (u u' : String) (v : List String)
    (h : u' ≠ u) :
    (setStack m u v).find? (fun p => p.1 == u') = m.find? (fun p => p.1 == u') := by
  induction m with
  | nil => simp [setStack, Ne.symm h]
  | cons p rest ih =>
    by_cases hp : p.1 = u
    · rw [setStack, if_pos (by simp [hp])]
      rw [List.find?_cons_of_neg _ (by simp [Ne.symm h]),
        List.find?_cons_of_neg _ (by simp [hp, Ne.symm h])]
    · rw [setStack, if_neg (by simp [hp])]
      by_cases hp' : p.1 = u'
      · rw [List.find?_cons_of_pos _ (by simp [hp']), List.find?_cons_of_pos _ (by simp [hp'])]
      · rw [List.find?_cons_of_neg _ (by simp [hp']), List.find?_cons_of_neg _ (by simp [hp'])]
        exact ih

theorem lookupStack_setStack_ne (m : List (String × List String)) (u u' : String)
    (v : List String) (h : u' ≠ u) :
    lookupStack (setStack m u v) u' = lookupStack m u' := by
  simp [lookupStack, setStack_find?_ne m u u' v h]

theorem lookupStack_pushStack_self (m : List (String × List String)) (u i : String) :
    lookupStack (pushStack m u i) u = i :: lookupStack m u :=
  lookupStack_setStack_self m u _

theorem lookupStack_pushStack_ne (m : List (String × List String)) (u u' i : String)
    (h : u' ≠ u) : lookupStack (pushStack m u i) u' = lookupStack m u' :=
  lookupStack_setStack_ne m u u' _ h

/-- When the table has no binding for a user, the defaulted stack is empty. -/
theorem lookupStack_eq_nil_of_find?_none (m : List (String × List String)) (u : String)
    (h : m.find? (fun p => p.1 == u) = none) : lookupStack m u = [] := by
  simp [lookupStack, h]

/-- When the table does have a binding, its value is the defaulted stack. -/
theorem lookupStack_eq_of_find? (m : List (String × List String)) (u : String)
    (p : String × List String) (h : m.find? (fun q => q.1 == u) = some p) :
    lookupStack m u = p.2 := by
  simp [lookupStack, h]

/-! ### Derived views -/

/-- The points of the stroke an add_points message would target: the first
live stroke carrying the id. -/
def strokePoints (st : RoomState) (i : String) : Option (List Point) :=
  (st.strokes.find? (fun s => s.id == i && !s.removed)).map (fun s => s.points)

/-- Whether a popped undo id names a live stroke (the guard of the undo
loop's remove branch). -/
def removable (strokes : List Stroke) (i : String) : Bool :=
  (strokes.find? (fun st => st.id == i && !st.removed)).isSome

/-! ### Shared concrete fixtures -/

/-- A sender connection context used by concrete scenarios. -/
def sn1 : Sender := ⟨1, "u"⟩

/-- Begin-stroke message with fixed styling and a chosen fresh id. -/
def mkBegin (i : String) : Cmd := .beginStroke "red" 3 .pen i

/-- A stroke as begin_stroke creates it for user u with id i. -/
def mkStroke (i : String) : Stroke :=
  { id := i, userId := "u", color := "red", size := 3, tool := .pen, points := [] }

/-- A 250-point batch. -/
def ps250 : List Point := (List.range 250).map (fun n => ⟨n, 0, 0⟩)

/-- A room holding one live stroke "a" of user "u". -/
def liveRoom : RoomState := { strokes := [mkStroke "a"], userStacks := [("u", ["a"])] }

/-- A room holding one tombstoned stroke "x" of user "u" whose id is still on
the user's stack. -/
def staleRoom : RoomState :=
  { strokes := [{ mkStroke "x" with removed := true }], userStacks := [("u", ["x"])] }

/-! ### C10 -/

/-- C10: handling an end_stroke message leaves the entire room state (strokes
and user stacks) unchanged; its only effect is relaying an end_stroke event to
every connection in the room except the sender. -/
theorem endStroke_pure_relay (st : RoomState) (sn : Sender) (sid : String) :
    handle st sn (.endStroke sid) = (st, [.toOthers (.endStrokeEv sid)]) := rfl

/-! ### C7 -/

/-- C7: an add_points message whose strokeId names no stroke in the room, or
only tombstoned strokes, is a silent no-op: the room state is unchanged and
nothing is broadcast. -/
theorem addPoints_reference_miss (st : RoomState) (sn : Sender) (sid : String)
    (ps : List Point) (h : ∀ s ∈ st.strokes, s.id = sid → s.removed = true) :
    handle st sn (.addPoints sid ps) = (st, []) := by
  have hfind : st.strokes.find? (fun s => s.id == sid && !s.removed) = none := by
    rw [List.find?_eq_none]
    intro s hs hp
    simp only [Bool.and_eq_true, beq_iff_eq, Bool.not_eq_true'] at hp
    exact absurd (h s hs hp.1) (by simp [hp.2])
  simp [handle, hfind]

/-- Witness for C7: appending to a tombstoned stroke changes nothing and
emits nothing. -/
theorem addPoints_reference_miss_witness :
    handle staleRoom sn1 (.addPoints "x" [⟨1, 2, 3⟩]) = (staleRoom, []) :=
  addPoints_reference_miss staleRoom sn1 "x" [⟨1, 2, 3⟩] (by decide)

/-! ### C4 -/

/-- C4: an inbound add_points batch addressed to an existing live stroke is
truncated to its first 200 points; exactly those are appended to the stroke
and broadcast to every connection except the sender, and the rest of the
batch is dropped; for a 250-point batch the first 200 are applied and the
remaining 50 dropped. -/
theorem addPoints_truncates (st : RoomState) (sn : Sender) (sid : String) (ps : List Point)
    (pre post : List Stroke) (s : Stroke)
    (hsplit : st.strokes = pre ++ s :: post)
    (hpre : ∀ x ∈ pre, ¬(x.id = sid ∧ x.removed = false))
    (hid : s.id = sid) (hlive : s.removed = false) :
    handle st sn (.addPoints sid ps) =
      ({ st with strokes := pre ++ { s with points := s.points ++ ps.take 200 } :: post },
       [.toOthers (.addPointsEv sid (ps.take 200))]) ∧
    (ps.take 200).length = min 200 ps.length ∧
    ps = ps.take 200 ++ ps.drop 200 ∧
    (ps.length = 250 → (ps.take 200).length = 200 ∧ (ps.drop 200).length = 50) := by
  have hpre' : ∀ x ∈ pre, (x.id == sid && !x.removed) = false := by
    intro x hx
    have := hpre x hx
    simp only [Bool.and_eq_false_iff, beq_eq_false_iff_ne, ne_eq, Bool.not_eq_false]
    by_cases hxi : x.id = sid
    · exact Or.inr (by simpa [hxi] using this)
    · exact Or.inl hxi
  have hs : (s.id == sid && !s.removed) = true := by simp [hid, hlive]
  have hfind : st.strokes.find? (fun x => x.id == sid && !x.removed) = some s := by
    rw [hsplit]; exact find?_of_split _ pre s post hpre' hs
  refine ⟨?_, List.length_take 200 ps, (List.take_append_drop 200 ps).symm, ?_⟩
  · simp only [handle, hfind, hid]
    rw [hsplit, addPointsTo_split sid (ps.take 200) pre s post hpre' hs]
    simp [hid]
  · intro hlen
    constructor
    · simp [List.length_take, hlen]
    · simp [List.length_drop, hlen]

/-- Witness for C4: a 250-point batch against the live stroke of liveRoom. -/
theorem addPoints_truncates_witness :
    handle liveRoom sn1 (.addPoints "a" ps250) =
      ({ liveRoom with
         strokes := [] ++ { mkStroke "a" with
                            points := (mkStroke "a").points ++ ps250.take 200 } :: [] },
       [.toOthers (.addPointsEv "a" (ps250.take 200))]) ∧
    (ps250.take 200).length = min 200 ps250.length ∧
    ps250 = ps250.take 200 ++ ps250.drop 200 ∧
    (ps250.length = 250 → (ps250.take 200).length = 200 ∧ (ps250.drop 200).length = 50) :=
  addPoints_truncates liveRoom sn1 "a" ps250 [] [] (mkStroke "a") rfl (by simp) rfl rfl

/-! ### C6 -/

/-- C6: clear replaces the stroke sequence with an empty sequence and the
user stacks with an empty mapping and broadcasts clear to all; afterwards any
sequence of undo or redo messages by any user leaves the state unchanged and
broadcasts nothing. -/
theorem clear_then_undo_redo_noop (st : RoomState) (sn : Sender) :
    handle st sn .clear = ({ strokes := [], userStacks := [] }, [.toAll .clearEv]) ∧
    ∀ msgs : List (Sender × Cmd),
      (∀ m ∈ msgs, (∃ u, m.2 = Cmd.undo u) ∨ ∃ u, m.2 = Cmd.redo u) →
      handleRun (handle st sn .clear).1 msgs = ((handle st sn .clear).1, []) := by
  have hstep : ∀ (sn' : Sender) (c : Cmd), ((∃ u, c = Cmd.undo u) ∨ ∃ u, c = Cmd.redo u) →
      handle ⟨[], []⟩ sn' c = (⟨[], []⟩, []) := by
    rintro sn' c (⟨u, rfl⟩ | ⟨u, rfl⟩) <;> rfl
  refine ⟨rfl, ?_⟩
  intro msgs hm
  have h1 : (handle st sn .clear).1 = (⟨[], []⟩ : RoomState) := rfl
  rw [h1]
  induction msgs with
  | nil => rfl
  | cons m rest ih =>
    have hm1 := hm m (by simp)
    have hrest : ∀ m' ∈ rest, (∃ u, m'.2 = Cmd.undo u) ∨ ∃ u, m'.2 = Cmd.redo u :=
      fun m' hm' => hm m' (List.mem_cons_of_mem m hm')
    calc handleRun (⟨[], []⟩ : RoomState) (m :: rest)
        = ((handleRun (handle ⟨[], []⟩ m.1 m.2).1 rest).1,
            (handle ⟨[], []⟩ m.1 m.2).2 ++ (handleRun (handle ⟨[], []⟩ m.1 m.2).1 rest).2) := rfl
      _ = (⟨[], []⟩, []) := by rw [hstep m.1 m.2 hm1]; simpa using ih hrest

/-- Witness for C6: after clearing liveRoom, one undo and one redo by user u
are silent no-ops. -/
theorem clear_then_undo_redo_noop_witness :
    handleRun (handle liveRoom sn1 .clear).1 [(sn1, .undo "u"), (sn1, .redo "u")] =
      ((handle liveRoom sn1 .clear).1, []) :=
  (clear_then_undo_redo_noop liveRoom sn1).2 [(sn1, .undo "u"), (sn1, .redo "u")]
    (fun m hm => by
      rcases List.mem_cons.mp hm with rfl | hm
      · exact Or.inl ⟨"u", rfl⟩
      · rcases List.mem_cons.mp hm with rfl | hm
        · exact Or.inr ⟨"u", rfl⟩
        · simp at hm)

/-! ### C3 -/

/-- The head of a dropWhile result fails the predicate. -/
theorem dropWhile_head_false {α} (p : α → Bool) :
    ∀ (l : List α) (a : α) (rest : List α), l.dropWhile p = a :: rest → p a = false := by
  intro l
  induction l with
  | nil => intro a rest h; simp at h
  | cons b l' ih =>
    intro a rest h
    rw [List.dropWhile_cons] at h
    by_cases hb : p b
    · exact ih a rest (by simpa [hb] using h)
    · obtain ⟨h1, _⟩ := List.cons.inj (by simpa [hb] using h)
      simpa [← h1] using hb

/-- The undo while-loop equals: silently drop the stale prefix of the stack,
then tombstone the first removable id and stop. -/
theorem undoLoop_eq_dropWhile (strokes : List Stroke) (stack : List String) :
    undoLoop strokes stack =
      match stack.dropWhile (fun i => !removable strokes i) with
      | [] => (strokes, [], none)
      | i :: rest => (markRemoved strokes i, rest, some i) := by
  induction stack with
  | nil => rfl
  | cons i rest ih =>
    rw [List.dropWhile_cons]
    by_cases h : removable strokes i
    · simp only [h, Bool.not_true, if_false]
      simp [undoLoop, removable] at h ⊢
      simp [h]
    · simp only [eq_false_of_ne_true h, Bool.not_false, if_true]
      have h' : (strokes.find? (fun st => st.id == i && !st.removed)).isSome = false := by
        simpa [removable] using h
      simp only [undoLoop, h', Bool.false_eq_true, if_false]
      exact ih

/-- C3 (amended): undo(room, userId) pops the user's stack until a popped id
names a live stroke; ids popped along the way that are missing or tombstoned
are discarded without a broadcast; the first removable id's stroke — exactly
that stroke — is tombstoned, remove_stroke is broadcast to all, and popping
stops with the rest of the stack retained; if the stack is exhausted with
nothing removable, the strokes are unchanged and nothing is broadcast, but
the popped stale ids are gone, leaving the user's stack empty. -/
theorem undo_pops_until_removable (st : RoomState) (sn : Sender) (u : String) :
    match (lookupStack st.userStacks u).dropWhile (fun i => !removable st.strokes i) with
    | [] =>
        (handle st sn (.undo u)).1.strokes = st.strokes ∧
        lookupStack (handle st sn (.undo u)).1.userStacks u = [] ∧
        (handle st sn (.undo u)).2 = []
    | i :: rest =>
        (∃ pre s post, st.strokes = pre ++ s :: post ∧
          (∀ x ∈ pre, ¬(x.id = i ∧ x.removed = false)) ∧ s.id = i ∧ s.removed = false ∧
          (handle st sn (.undo u)).1.strokes = pre ++ { s with removed := true } :: post) ∧
        lookupStack (handle st sn (.undo u)).1.userStacks u = rest ∧
        (handle st sn (.undo u)).2 = [.toAll (.removeStrokeEv i)] := by
  rcases hb : st.userStacks.find? (fun p => p.1 == u) with _ | p
  · have hnil : lookupStack st.userStacks u = [] := lookupStack_eq_nil_of_find?_none _ _ hb
    have hh : handle st sn (.undo u) = (st, []) := by simp [handle, hb]
    simp [hnil, hh]
  · have hstack : lookupStack st.userStacks u = p.2 := lookupStack_eq_of_find? _ _ _ hb
    have hh : handle st sn (.undo u) =
        ({ strokes := (undoLoop st.strokes p.2).1
           userStacks := setStack st.userStacks u (undoLoop st.strokes p.2).2.1 },
         match (undoLoop st.strokes p.2).2.2 with
         | some i => [.toAll (.removeStrokeEv i)]
         | none => []) := by
      simp [handle, hb]
    rw [hstack]
    rcases hd : p.2.dropWhile (fun i => !removable st.strokes i) with _ | ⟨i, rest⟩
    · have hloop : undoLoop st.strokes p.2 = (st.strokes, [], none) := by
        rw [undoLoop_eq_dropWhile, hd]
      refine ⟨by simp [hh, hloop], ?_, by simp [hh, hloop]⟩
      simp only [hh, hloop]
      exact lookupStack_setStack_self _ _ _
    · have hloop : undoLoop st.strokes p.2 = (markRemoved st.strokes i, rest, some i) := by
        rw [undoLoop_eq_dropWhile, hd]
      have hrem : removable st.strokes i = true := by
        have := dropWhile_head_false _ _ _ _ hd
        simpa using this
      have hsome := hrem
      simp only [removable] at hsome
      obtain ⟨s, hfs⟩ := Option.isSome_iff_exists.mp hsome
      obtain ⟨pre, post, hsplit, hpre, hps⟩ := find?_split _ hfs
      simp only [Bool.and_eq_true, beq_iff_eq, Bool.not_eq_true'] at hps
      refine ⟨⟨pre, s, post, hsplit, ?_, hps.1, hps.2, ?_⟩, ?_, by simp [hh, hloop]⟩
      · intro x hx hcontra
        have := hpre x hx
        simp [hcontra.1, hcontra.2] at this
      · simp only [hh, hloop]
        rw [hsplit]
        exact markRemoved_split i pre s post hpre (by simp [hps.1, hps.2])
      · simp only [hh, hloop]
        exact lookupStack_setStack_self _ _ _

/-- Counterexample for C3 as stated: in a room whose user stack holds only
the id of a tombstoned stroke, undo broadcasts nothing but does change the
room state — the stale id is popped off the stack. -/
theorem undo_exhausted_mutates_counterexample :
    (handle staleRoom sn1 (.undo "u")).2 = [] ∧
    (handle staleRoom sn1 (.undo "u")).1 ≠ staleRoom := by decide

/-! ### C1 -/

/-- The add_points payloads of a message sequence, in authority-received
order. -/
def appendPayloads : List (Sender × Cmd) → List (List Point)
  | [] => []
  | (_, .addPoints _ ps) :: ms => ps :: appendPayloads ms
  | (_, .beginStroke _ _ _ _) :: ms => appendPayloads ms
  | (_, .endStroke _) :: ms => appendPayloads ms
  | (_, .undo _) :: ms => appendPayloads ms
  | (_, .redo _) :: ms => appendPayloads ms
  | (_, .clear) :: ms => appendPayloads ms

/-- One add_points turn extends the canonical point sequence by the truncated
batch. -/
theorem strokePoints_addPoints_step (st : RoomState) (sn : Sender) (i : String)
    (ps pts : List Point) (h : strokePoints st i = some pts) :
    strokePoints (handle st sn (.addPoints i ps)).1 i = some (pts ++ ps.take 200) := by
  obtain ⟨s, hfs, hpts⟩ := Option.map_eq_some'.mp h
  obtain ⟨pre, post, hsplit, hpre, hp⟩ := find?_split _ hfs
  have hfind : st.strokes.find? (fun x => x.id == i && !x.removed) = some s := hfs
  simp only [handle, hfind]
  have hnew : addPointsTo st.strokes i (ps.take 200) =
      pre ++ { s with points := s.points ++ ps.take 200 } :: post := by
    rw [hsplit]; exact addPointsTo_split i (ps.take 200) pre s post hpre hp
  simp only [strokePoints, hnew]
  rw [find?_of_split _ pre _ post hpre (by simpa using hp)]
  simp [hpts]

/-- Running only add_points and end_stroke messages for stroke i appends the
truncated payloads in received order. -/
theorem strokePoints_run (i : String) :
    ∀ (msgs : List (Sender × Cmd)) (st : RoomState) (pts : List Point),
      (∀ m ∈ msgs, (∃ ps, m.2 = Cmd.addPoints i ps) ∨ m.2 = Cmd.endStroke i) →
      strokePoints st i = some pts →
      strokePoints (handleRun st msgs).1 i
        = some (pts ++ ((appendPayloads msgs).map (fun ps => ps.take 200)).flatten) := by
  intro msgs
  induction msgs with
  | nil => intro st pts _ h; simpa [handleRun, appendPayloads] using h
  | cons m rest ih =>
    intro st pts hm h
    have hrest : ∀ m' ∈ rest, (∃ ps, m'.2 = Cmd.addPoints i ps) ∨ m'.2 = Cmd.endStroke i :=
      fun m' hm' => hm m' (List.mem_cons_of_mem m hm')
    obtain ⟨sn', c⟩ := m
    rcases hm ⟨sn', c⟩ (by simp) with ⟨ps, hc⟩ | hc <;> simp only at hc <;> subst hc
    · have hstep := strokePoints_addPoints_step st sn' i ps pts h
      have := ih (handle st sn' (.addPoints i ps)).1 (pts ++ ps.take 200) hrest hstep
      simpa [handleRun, appendPayloads, List.append_assoc] using this
    · have := ih st pts hrest h
      simpa [handleRun, appendPayloads, handle] using this

/-- C1 (amended): for a begin_stroke with a fresh id followed by any
interleaving of add_points and end_stroke for that stroke, the canonical
stroke's final point sequence equals the concatenation, in authority-received
order, of the append-points payloads each truncated to its first 200 points. -/
theorem stroke_points_eq_concat_truncated (st0 : RoomState) (sn : Sender) (c : String)
    (sz : Int) (tl : Tool) (i : String) (msgs : List (Sender × Cmd))
    (hfresh : ∀ s ∈ st0.strokes, s.id ≠ i)
    (hm : ∀ m ∈ msgs, (∃ ps, m.2 = Cmd.addPoints i ps) ∨ m.2 = Cmd.endStroke i) :
    strokePoints (handleRun st0 ((sn, Cmd.beginStroke c sz tl i) :: msgs)).1 i
      = some ((appendPayloads msgs).map (fun ps => ps.take 200)).flatten := by
  have hbegin : strokePoints (handle st0 sn (.beginStroke c sz tl i)).1 i = some [] := by
    simp only [handle, strokePoints]
    rw [List.find?_append]
    have hnone : st0.strokes.find? (fun x => x.id == i && !x.removed) = none := by
      rw [List.find?_eq_none]
      intro s hs
      simp [hfresh s hs]
    simp [hnone]
  have := strokePoints_run i msgs (handle st0 sn (.beginStroke c sz tl i)).1 [] hm hbegin
  simpa [handleRun] using this

set_option maxRecDepth 8000 in
/-- Counterexample for C1 as stated: a single 250-point append payload is not
what the canonical stroke ends up holding — the concatenation of the raw
payloads has 250 points, the stroke 200. -/
theorem stroke_points_full_concat_counterexample :
    strokePoints (handleRun emptyRoom [(sn1, mkBegin "a"), (sn1, .addPoints "a" ps250)]).1 "a"
      ≠ some ps250 := by decide

/-- Witness for C1: begin, two appends interleaved with an end_stroke. -/
theorem stroke_points_eq_concat_truncated_witness :
    strokePoints (handleRun emptyRoom
        [(sn1, Cmd.beginStroke "red" 3 .pen "a"),
         (sn1, .addPoints "a" [⟨0, 0, 0⟩, ⟨5, 5, 1⟩]),
         (sn1, .endStroke "a"),
         (sn1, .addPoints "a" [⟨7, 7, 2⟩])]).1 "a"
      = some ((appendPayloads
          [(sn1, .addPoints "a" [⟨0, 0, 0⟩, ⟨5, 5, 1⟩]),
           (sn1, .endStroke "a"),
           (sn1, .addPoints "a" [⟨7, 7, 2⟩])]).map (fun ps => ps.take 200)).flatten :=
  stroke_points_eq_concat_truncated emptyRoom sn1 "red" 3 .pen "a"
    [(sn1, .addPoints "a" [⟨0, 0, 0⟩, ⟨5, 5, 1⟩]),
     (sn1, .endStroke "a"),
     (sn1, .addPoints "a" [⟨7, 7, 2⟩])]
    (by simp [emptyRoom])
    (fun m hm => by
      rcases List.mem_cons.mp hm with rfl | hm
      · exact Or.inl ⟨[⟨0, 0, 0⟩, ⟨5, 5, 1⟩], rfl⟩
      · rcases List.mem_cons.mp hm with rfl | hm
        · exact Or.inr rfl
        · rcases List.mem_cons.mp hm with rfl | hm
          · exact Or.inl ⟨[⟨7, 7, 2⟩], rfl⟩
          · simp at hm)

/-! ### C2 -/

theorem setStack_setStack (m : List (String × List String)) (u : String)
    (v w : List String) : setStack (setStack m u v) u w = setStack m u w := by
  induction m with
  | nil => simp [setStack]
  | cons p rest ih =>
    by_cases hp : p.1 = u
    · simp [setStack, hp]
    · simp [setStack, hp, ih]

/-- The stroke begin_stroke creates for a user with the given styling and id. -/
def mkUserStroke (uid col : String) (sz : Int) (tl : Tool) (i : String) : Stroke :=
  { id := i, userId := uid, color := col, size := sz, tool := tl, points := [] }

/-- Counterexample for C2 as stated: strokes a, b, c created in that order by
user u; undo, undo tombstones c then b; the following redo restores c — the
most recently created tombstoned stroke — while b stays tombstoned, and the
user's stack receives c, not b. -/
theorem redo_restores_latest_created_counterexample :
    (handleRun emptyRoom
        [(sn1, mkBegin "a"), (sn1, mkBegin "b"), (sn1, mkBegin "c"),
         (sn1, .undo "u"), (sn1, .undo "u"), (sn1, .redo "u")]).1.strokes.map
        (fun s => (s.id, s.removed)) = [("a", false), ("b", true), ("c", false)] ∧
    (handleRun emptyRoom
        [(sn1, mkBegin "a"), (sn1, mkBegin "b"), (sn1, mkBegin "c"),
         (sn1, .undo "u"), (sn1, .undo "u"), (sn1, .redo "u")]).1.userStacks
      = [("u", ["c", "a"])] ∧
    (handleRun emptyRoom
        [(sn1, mkBegin "a"), (sn1, mkBegin "b"), (sn1, mkBegin "c"),
         (sn1, .undo "u"), (sn1, .undo "u"), (sn1, .redo "u")]).2.getLast?
      = some (.toAll (.restoreStrokeEv (mkStroke "c"))) := by decide

/-- C2 (amended): with strokes a, b, c created in that order by one user (c
carrying an appended batch) and none tombstoned, two consecutive undo calls by
that user tombstone c and then b, and a subsequent redo by that user
untombstones c — the most recently created tombstoned stroke authored by the
user — pushes c's id back onto that user's stack, and broadcasts
restore_stroke carrying the full stroke including its accumulated points. -/
theorem redo_restores_latest_created (st0 : RoomState) (sn : Sender)
    (a b c col : String) (sz : Int) (tl : Tool) (ps : List Point)
    (hab : a ≠ b) (hac : a ≠ c) (hbc : b ≠ c)
    (hfresh : ∀ s ∈ st0.strokes, s.id ≠ a ∧ s.id ≠ b ∧ s.id ≠ c) :
    handleRun st0
        [(sn, .beginStroke col sz tl a), (sn, .beginStroke col sz tl b),
         (sn, .beginStroke col sz tl c), (sn, .addPoints c ps),
         (sn, .undo sn.uid), (sn, .undo sn.uid), (sn, .redo sn.uid)] =
      ({ strokes := st0.strokes ++
           [mkUserStroke sn.uid col sz tl a,
            { mkUserStroke sn.uid col sz tl b with removed := true },
            { mkUserStroke sn.uid col sz tl c with points := ps.take 200 }]
         userStacks := setStack st0.userStacks sn.uid
           (c :: a :: lookupStack st0.userStacks sn.uid) },
       [.toAll (.beginStrokeEv (mkUserStroke sn.uid col sz tl a)),
        .directBack (.beginStrokeEv (mkUserStroke sn.uid col sz tl a)),
        .toAll (.beginStrokeEv (mkUserStroke sn.uid col sz tl b)),
        .directBack (.beginStrokeEv (mkUserStroke sn.uid col sz tl b)),
        .toAll (.beginStrokeEv (mkUserStroke sn.uid col sz tl c)),
        .directBack (.beginStrokeEv (mkUserStroke sn.uid col sz tl c)),
        .toOthers (.addPointsEv c (ps.take 200)),
        .toAll (.removeStrokeEv c), .toAll (.removeStrokeEv b),
        .toAll (.restoreStrokeEv
          { mkUserStroke sn.uid col sz tl c with points := ps.take 200 })]) := by
  set u := sn.uid with hu
  set A := mkUserStroke u col sz tl a with hA
  set B := mkUserStroke u col sz tl b with hB
  set C := mkUserStroke u col sz tl c with hC
  set C2 := { mkUserStroke u col sz tl c with points := ps.take 200 } with hC2
  set S0 := lookupStack st0.userStacks u with hS0
  have hCid : C.id = c := rfl
  -- live-c-predicate is false on everything before stroke C
  have hpreC : ∀ x ∈ st0.strokes ++ [A, B], (x.id == c && !x.removed) = false := by
    intro x hx
    rcases List.mem_append.mp hx with hx | hx
    · simp [(hfresh x hx).2.2]
    · rcases List.mem_cons.mp hx with rfl | hx
      · simp [hA, mkUserStroke, hac]
      · rcases List.mem_cons.mp hx with rfl | hx
        · simp [hB, mkUserStroke, hbc]
        · simp at hx
  have hpreB : ∀ x ∈ st0.strokes ++ [A], (x.id == b && !x.removed) = false := by
    intro x hx
    rcases List.mem_append.mp hx with hx | hx
    · simp [(hfresh x hx).2.1]
    · rcases List.mem_cons.mp hx with rfl | hx
      · simp [hA, mkUserStroke, hab]
      · simp at hx
  -- the three begin turns
  have h1 : handle st0 sn (.beginStroke col sz tl a) =
      ({ strokes := st0.strokes ++ [A]
         userStacks := pushStack st0.userStacks u a },
       [.toAll (.beginStrokeEv A), .directBack (.beginStrokeEv A)]) := rfl
  have h2 : handle { strokes := st0.strokes ++ [A]
                     userStacks := pushStack st0.userStacks u a } sn
        (.beginStroke col sz tl b) =
      ({ strokes := st0.strokes ++ [A, B]
         userStacks := pushStack (pushStack st0.userStacks u a) u b },
       [.toAll (.beginStrokeEv B), .directBack (.beginStrokeEv B)]) := by
    simp [handle, hB, mkUserStroke, hu]
  have h3 : handle { strokes := st0.strokes ++ [A, B]
                     userStacks := pushStack (pushStack st0.userStacks u a) u b } sn
        (.beginStroke col sz tl c) =
      ({ strokes := st0.strokes ++ [A, B, C]
         userStacks := pushStack (pushStack (pushStack st0.userStacks u a) u b) u c },
       [.toAll (.beginStrokeEv C), .directBack (.beginStrokeEv C)]) := by
    simp [handle, hC, mkUserStroke, hu]
  -- the append turn
  have hsplit3 : st0.strokes ++ [A, B, C] = (st0.strokes ++ [A, B]) ++ C :: [] := by simp
  have hCmatch : (C.id == c && !C.removed) = true := by simp [hC, mkUserStroke]
  have hfindC : (st0.strokes ++ [A, B, C]).find? (fun x => x.id == c && !x.removed)
      = some C := by
    rw [hsplit3]; exact find?_of_split _ _ _ _ hpreC hCmatch
  have h4 : handle { strokes := st0.strokes ++ [A, B, C]
                     userStacks := pushStack (pushStack (pushStack st0.userStacks u a) u b) u c }
        sn (.addPoints c ps) =
      ({ strokes := st0.strokes ++ [A, B, C2]
         userStacks := pushStack (pushStack (pushStack st0.userStacks u a) u b) u c },
       [.toOthers (.addPointsEv c (ps.take 200))]) := by
    simp only [handle, hfindC, hCid]
    rw [hsplit3, addPointsTo_split c (ps.take 200) _ C [] hpreC hCmatch]
    simp [hC, hC2, mkUserStroke]
  -- first undo: pops c, which is live
  have hl2 : lookupStack (pushStack (pushStack st0.userStacks u a) u b) u = b :: a :: S0 := by
    rw [lookupStack_pushStack_self, lookupStack_pushStack_self]
  have hbind3 : (pushStack (pushStack (pushStack st0.userStacks u a) u b) u c).find?
      (fun p => p.1 == u) = some (u, c :: b :: a :: S0) := by
    show (setStack _ u _).find? _ = _
    rw [hl2]
    exact find?_setStack _ u _
  have hC2match : (C2.id == c && !C2.removed) = true := by simp [hC2, mkUserStroke]
  have hsplit4 : st0.strokes ++ [A, B, C2] = (st0.strokes ++ [A, B]) ++ C2 :: [] := by simp
  have hfindC2 : (st0.strokes ++ [A, B, C2]).find? (fun x => x.id == c && !x.removed)
      = some C2 := by
    rw [hsplit4]; exact find?_of_split _ _ _ _ hpreC hC2match
  have hloop1 : undoLoop (st0.strokes ++ [A, B, C2]) (c :: b :: a :: S0) =
      (st0.strokes ++ [A, B, { C2 with removed := true }], b :: a :: S0, some c) := by
    simp only [undoLoop, hfindC2, Option.isSome_some, if_true]
    rw [hsplit4, markRemoved_split c _ C2 [] hpreC hC2match]
    simp
  have h5 : handle { strokes := st0.strokes ++ [A, B, C2]
                     userStacks := pushStack (pushStack (pushStack st0.userStacks u a) u b) u c }
        sn (.undo u) =
      ({ strokes := st0.strokes ++ [A, B, { C2 with removed := true }]
         userStacks := setStack
           (pushStack (pushStack (pushStack st0.userStacks u a) u b) u c) u
           (b :: a :: S0) },
       [.toAll (.removeStrokeEv c)]) := by
    simp only [handle, hbind3, hloop1]
  -- second undo: pops b, which is live
  have hBmatch : (B.id == b && !B.removed) = true := by simp [hB, mkUserStroke]
  have hsplit5 : st0.strokes ++ [A, B, { C2 with removed := true }] =
      (st0.strokes ++ [A]) ++ B :: [{ C2 with removed := true }] := by simp
  have hfindB : (st0.strokes ++ [A, B, { C2 with removed := true }]).find?
      (fun x => x.id == b && !x.removed) = some B := by
    rw [hsplit5]; exact find?_of_split _ _ _ _ hpreB hBmatch
  have hloop2 : undoLoop (st0.strokes ++ [A, B, { C2 with removed := true }])
      (b :: a :: S0) =
      (st0.strokes ++ [A, { B with removed := true }, { C2 with removed := true }],
       a :: S0, some b) := by
    simp only [undoLoop, hfindB, Option.isSome_some, if_true]
    rw [hsplit5, markRemoved_split b _ B _ hpreB hBmatch]
    simp
  have h6 : handle { strokes := st0.strokes ++ [A, B, { C2 with removed := true }]
                     userStacks := setStack
                       (pushStack (pushStack (pushStack st0.userStacks u a) u b) u c) u
                       (b :: a :: S0) } sn (.undo u) =
      ({ strokes := st0.strokes ++
           [A, { B with removed := true }, { C2 with removed := true }]
         userStacks := setStack
           (pushStack (pushStack (pushStack st0.userStacks u a) u b) u c) u
           (a :: S0) },
       [.toAll (.removeStrokeEv b)]) := by
    simp only [handle, find?_setStack, hloop2, setStack_setStack]
  -- redo: scans in reverse creation order and restores c
  have hrev : (st0.strokes ++
      [A, { B with removed := true }, { C2 with removed := true }]).reverse =
      { C2 with removed := true } :: { B with removed := true } :: A ::
        st0.strokes.reverse := by simp
  have hfindR : ((st0.strokes ++
      [A, { B with removed := true }, { C2 with removed := true }]).reverse).find?
      (fun x => x.userId == u && x.removed) = some { C2 with removed := true } := by
    rw [hrev]
    exact List.find?_cons_of_pos _ (by simp [hC2, mkUserStroke])
  have hmr : markRestored ((st0.strokes ++
      [A, { B with removed := true }, { C2 with removed := true }]).reverse) u =
      C2 :: { B with removed := true } :: A :: st0.strokes.reverse := by
    rw [hrev]
    show (if _ then _ else _) = _
    rw [if_pos (by simp [hC2, mkUserStroke])]
    rfl
  have h7 : handle { strokes := st0.strokes ++
                       [A, { B with removed := true }, { C2 with removed := true }]
                     userStacks := setStack
                       (pushStack (pushStack (pushStack st0.userStacks u a) u b) u c) u
                       (a :: S0) } sn (.redo u) =
      ({ strokes := st0.strokes ++ [A, { B with removed := true }, C2]
         userStacks := setStack st0.userStacks u (c :: a :: S0) },
       [.toAll (.restoreStrokeEv C2)]) := by
    simp only [handle, hfindR, hmr]
    simp only [Prod.mk.injEq, RoomState.mk.injEq]
    refine ⟨⟨?_, ?_⟩, ?_⟩
    · simp
    · simp only [pushStack, lookupStack_setStack_self, setStack_setStack]
      rfl
    · rfl
  -- assemble the seven turns
  simp only [handleRun, h1, h2, h3, h4, h5, h6, h7]
  rfl

/-- Witness for C2: the concrete a, b, c scenario from the empty room. -/
theorem redo_restores_latest_created_witness :
    handleRun emptyRoom
        [(sn1, .beginStroke "red" 3 .pen "a"), (sn1, .beginStroke "red" 3 .pen "b"),
         (sn1, .beginStroke "red" 3 .pen "c"), (sn1, .addPoints "c" [⟨1, 2, 3⟩]),
         (sn1, .undo sn1.uid), (sn1, .undo sn1.uid), (sn1, .redo sn1.uid)] =
      ({ strokes := emptyRoom.strokes ++
           [mkUserStroke sn1.uid "red" 3 .pen "a",
            { mkUserStroke sn1.uid "red" 3 .pen "b" with removed := true },
            { mkUserStroke sn1.uid "red" 3 .pen "c" with
              points := List.take 200 [⟨1, 2, 3⟩] }]
         userStacks := setStack emptyRoom.userStacks sn1.uid
           ("c" :: "a" :: lookupStack emptyRoom.userStacks sn1.uid) },
       [.toAll (.beginStrokeEv (mkUserStroke sn1.uid "red" 3 .pen "a")),
        .directBack (.beginStrokeEv (mkUserStroke sn1.uid "red" 3 .pen "a")),
        .toAll (.beginStrokeEv (mkUserStroke sn1.uid "red" 3 .pen "b")),
        .directBack (.beginStrokeEv (mkUserStroke sn1.uid "red" 3 .pen "b")),
        .toAll (.beginStrokeEv (mkUserStroke sn1.uid "red" 3 .pen "c")),
        .directBack (.beginStrokeEv (mkUserStroke sn1.uid "red" 3 .pen "c")),
        .toOthers (.addPointsEv "c" (List.take 200 [⟨1, 2, 3⟩])),
        .toAll (.removeStrokeEv "c"), .toAll (.removeStrokeEv "b"),
        .toAll (.restoreStrokeEv
          { mkUserStroke sn1.uid "red" 3 .pen "c" with
            points := List.take 200 [⟨1, 2, 3⟩] })]) :=
  redo_restores_latest_created emptyRoom sn1 "a" "b" "c" "red" 3 .pen [⟨1, 2, 3⟩]
    (by decide) (by decide) (by decide) (fun s hs => by simp [emptyRoom] at hs)

/-! ### C5 -/

/-- Counterexample for C5 as stated: strokes a then b by user u; undo
tombstones b, a second undo tombstones a; the redo immediately following that
undo restores b — the most recently created tombstoned stroke — and not a,
the stroke the undo tombstoned, which stays removed. -/
theorem undo_redo_roundtrip_counterexample :
    (handleRun emptyRoom
        [(sn1, mkBegin "a"), (sn1, mkBegin "b"),
         (sn1, .undo "u"), (sn1, .undo "u"), (sn1, .redo "u")]).2.drop 4 =
      [.toAll (.removeStrokeEv "b"), .toAll (.removeStrokeEv "a"),
       .toAll (.restoreStrokeEv (mkStroke "b"))] ∧
    (handleRun emptyRoom
        [(sn1, mkBegin "a"), (sn1, mkBegin "b"),
         (sn1, .undo "u"), (sn1, .undo "u"), (sn1, .redo "u")]).1.strokes.map
        (fun s => (s.id, s.removed)) = [("a", true), ("b", false)] := by decide

/-- C5 (amended): when the stroke tombstoned by an undo is the most recently
created tombstoned stroke authored by that user (no stroke after it in
creation order is a tombstoned stroke of theirs), an immediately following
redo by the same user restores exactly that stroke, with a point sequence
bit-identical to its pre-removal sequence: the stroke list returns to its
pre-undo value, the user's stack regains the stroke's id, and the
restore_stroke payload is the original stroke, points included. -/
theorem undo_then_redo_roundtrip (st : RoomState) (sn : Sender) (u rid : String)
    (rest : List String) (pre post : List Stroke) (X : Stroke)
    (hstack : lookupStack st.userStacks u = rid :: rest)
    (hsplit : st.strokes = pre ++ X :: post)
    (hXid : X.id = rid) (hXu : X.userId = u) (hXlive : X.removed = false)
    (hpre : ∀ s ∈ pre, ¬(s.id = rid ∧ s.removed = false))
    (hpost : ∀ s ∈ post, ¬(s.userId = u ∧ s.removed = true)) :
    (handle (handle st sn (.undo u)).1 sn (.redo u)).1.strokes = st.strokes ∧
    lookupStack (handle (handle st sn (.undo u)).1 sn (.redo u)).1.userStacks u
      = rid :: rest ∧
    (handle st sn (.undo u)).2 = [.toAll (.removeStrokeEv rid)] ∧
    (handle (handle st sn (.undo u)).1 sn (.redo u)).2
      = [.toAll (.restoreStrokeEv X)] := by
  obtain ⟨xid, xuid, xcol, xsz, xtl, xpts, xrm⟩ := X
  have hid : rid = xid := hXid.symm
  have huid : u = xuid := hXu.symm
  have hrm : xrm = false := hXlive
  subst hid; subst huid; subst hrm
  -- the undo turn
  have hpre' : ∀ s ∈ pre, (s.id == rid && !s.removed) = false := by
    intro s hs
    by_cases hsi : s.id = rid
    · rcases hb : s.removed with _ | _
      · exact (hpre s hs ⟨hsi, hb⟩).elim
      · simp [hb]
    · simp [hsi]
  have hXmatch : ((⟨rid, u, xcol, xsz, xtl, xpts, false⟩ : Stroke).id == rid &&
      !(⟨rid, u, xcol, xsz, xtl, xpts, false⟩ : Stroke).removed) = true := by simp
  have hfindX : st.strokes.find? (fun x => x.id == rid && !x.removed)
      = some ⟨rid, u, xcol, xsz, xtl, xpts, false⟩ := by
    rw [hsplit]; exact find?_of_split _ _ _ _ hpre' hXmatch
  obtain ⟨p, hfb⟩ : ∃ p, st.userStacks.find? (fun q => q.1 == u) = some p := by
    rcases hfb : st.userStacks.find? (fun q => q.1 == u) with _ | p
    · rw [lookupStack_eq_nil_of_find?_none _ _ hfb] at hstack; simp at hstack
    · exact ⟨p, hfb⟩
  have hp2 : p.2 = rid :: rest := by rw [← lookupStack_eq_of_find? _ _ _ hfb, hstack]
  have hloop : undoLoop st.strokes (rid :: rest) =
      (pre ++ (⟨rid, u, xcol, xsz, xtl, xpts, true⟩ : Stroke) :: post, rest, some rid) := by
    simp only [undoLoop, hfindX, Option.isSome_some, if_true]
    rw [hsplit, markRemoved_split rid _ _ _ hpre' hXmatch]
  have hundo : handle st sn (.undo u) =
      ({ strokes := pre ++ (⟨rid, u, xcol, xsz, xtl, xpts, true⟩ : Stroke) :: post
         userStacks := setStack st.userStacks u rest },
       [.toAll (.removeStrokeEv rid)]) := by
    simp only [handle, hfb, hp2, hloop]
  -- the redo turn
  have hpostR : ∀ s ∈ post.reverse, (s.userId == u && s.removed) = false := by
    intro s hs
    by_cases hsu : s.userId = u
    · rcases hb : s.removed with _ | _
      · simp [hb]
      · exact (hpost s (List.mem_reverse.mp hs) ⟨hsu, hb⟩).elim
    · simp [hsu]
  have hrev : (pre ++ (⟨rid, u, xcol, xsz, xtl, xpts, true⟩ : Stroke) :: post).reverse
      = post.reverse ++ (⟨rid, u, xcol, xsz, xtl, xpts, true⟩ : Stroke) :: pre.reverse := by
    simp
  have hfindR : ((pre ++ (⟨rid, u, xcol, xsz, xtl, xpts, true⟩ : Stroke) :: post).reverse).find?
      (fun x => x.userId == u && x.removed)
      = some ⟨rid, u, xcol, xsz, xtl, xpts, true⟩ := by
    rw [hrev]; exact find?_of_split _ _ _ _ hpostR (by simp)
  have hmr : markRestored
      ((pre ++ (⟨rid, u, xcol, xsz, xtl, xpts, true⟩ : Stroke) :: post).reverse) u
      = post.reverse ++ (⟨rid, u, xcol, xsz, xtl, xpts, false⟩ : Stroke) :: pre.reverse := by
    rw [hrev]; exact markRestored_split u _ _ _ hpostR (by simp)
  have hredo : handle { strokes := pre ++ (⟨rid, u, xcol, xsz, xtl, xpts, true⟩ : Stroke) :: post
                        userStacks := setStack st.userStacks u rest } sn (.redo u) =
      ({ strokes := pre ++ (⟨rid, u, xcol, xsz, xtl, xpts, false⟩ : Stroke) :: post
         userStacks := setStack st.userStacks u (rid :: rest) },
       [.toAll (.restoreStrokeEv ⟨rid, u, xcol, xsz, xtl, xpts, false⟩)]) := by
    simp only [handle, hfindR, hmr]
    simp only [Prod.mk.injEq, RoomState.mk.injEq]
    refine ⟨⟨by simp, ?_⟩, trivial⟩
    simp only [pushStack, lookupStack_setStack_self, setStack_setStack]
  rw [hundo, hredo]
  exact ⟨hsplit.symm, lookupStack_setStack_self _ _ _, rfl, rfl⟩

/-- Witness for C5: one live stroke, undo then redo round-trips the room. -/
theorem undo_then_redo_roundtrip_witness :
    (handle (handle liveRoom sn1 (.undo "u")).1 sn1 (.redo "u")).1.strokes
      = liveRoom.strokes ∧
    lookupStack (handle (handle liveRoom sn1 (.undo "u")).1 sn1
        (.redo "u")).1.userStacks "u" = "a" :: [] ∧
    (handle liveRoom sn1 (.undo "u")).2 = [.toAll (.removeStrokeEv "a")] ∧
    (handle (handle liveRoom sn1 (.undo "u")).1 sn1 (.redo "u")).2
      = [.toAll (.restoreStrokeEv (mkStroke "a"))] :=
  undo_then_redo_roundtrip liveRoom sn1 "u" "a" [] [] [] (mkStroke "a")
    (by decide) rfl rfl rfl rfl (by simp) (by simp)

/-! ### C9 -/

/-- Each client-side begin_stroke event appends one mirror entry carrying the
event's stroke id, in every branch of the handler. -/
theorem clientBeginStroke_ids (myU : String) (cs : ClientState) (ev : Stroke) :
    (clientBeginStroke myU cs ev).1.strokes.map (fun s => s.id)
      = cs.strokes.map (fun s => s.id) ++ [ev.id] := by
  unfold clientBeginStroke
  split
  · split <;> simp
  · simp

/-- An idle client state with an empty mirror. -/
def cs0 : ClientState :=
  { strokes := [], drawing := false, currentId := none, pendingPoints := []
    localTempStroke := none }

/-- C9: the begin_stroke turn emits a room-wide broadcast that does not
exclude the sender plus an extra direct send, so the initiating connection
(open and in the room) receives the event twice while every other open
connection in the room receives it once; on the client, processing the event
twice appends two mirror entries with the same id. -/
theorem begin_echo_double_delivery (st : RoomState) (sn : Sender) (col : String)
    (sz : Int) (tl : Tool) (i room : String) (sender : Conn)
    (hcid : sender.cid = sn.cid) (hopen : sender.isOpen = true)
    (hroom : sender.room = room) :
    copiesTo room sn.cid (handle st sn (.beginStroke col sz tl i)).2 sender = 2 ∧
    (∀ c2 : Conn, c2.isOpen = true → c2.room = room → c2.cid ≠ sn.cid →
      copiesTo room sn.cid (handle st sn (.beginStroke col sz tl i)).2 c2 = 1) ∧
    (∀ (myU : String) (cs : ClientState) (ev : Stroke),
      (clientBeginStroke myU (clientBeginStroke myU cs ev).1 ev).1.strokes.map
          (fun s => s.id)
        = cs.strokes.map (fun s => s.id) ++ [ev.id, ev.id]) := by
  refine ⟨?_, ?_, ?_⟩
  · simp [handle, copiesTo, receives, hcid, hopen, hroom]
  · intro c2 h1 h2 h3
    simp [handle, copiesTo, receives, h1, h2, h3]
  · intro myU cs ev
    rw [clientBeginStroke_ids, clientBeginStroke_ids]
    simp

/-- Witness for C9: sender connection 1 gets two copies, connection 2 one;
a client replaying the echo twice mirrors the stroke twice. -/
theorem begin_echo_double_delivery_witness :
    copiesTo "default" sn1.cid (handle emptyRoom sn1 (mkBegin "a")).2
      ⟨1, "default", "u2", true⟩ = 2 ∧
    copiesTo "default" sn1.cid (handle emptyRoom sn1 (mkBegin "a")).2
      ⟨2, "default", "v", true⟩ = 1 ∧
    (clientBeginStroke "u" (clientBeginStroke "u" cs0 (mkStroke "a")).1
        (mkStroke "a")).1.strokes.map (fun s => s.id)
      = cs0.strokes.map (fun s => s.id) ++ [(mkStroke "a").id, (mkStroke "a").id] :=
  ⟨(begin_echo_double_delivery emptyRoom sn1 "red" 3 .pen "a" "default"
      ⟨1, "default", "u2", true⟩ rfl rfl rfl).1,
   (begin_echo_double_delivery emptyRoom sn1 "red" 3 .pen "a" "default"
      ⟨1, "default", "u2", true⟩ rfl rfl rfl).2.1
      ⟨2, "default", "v", true⟩ rfl rfl (by decide),
   (begin_echo_double_delivery emptyRoom sn1 "red" 3 .pen "a" "default"
      ⟨1, "default", "u2", true⟩ rfl rfl rfl).2.2 "u" cs0 (mkStroke "a")⟩

/-! ### C8 -/

/-- Room states reachable from the empty room by inbound messages, each
begin_stroke receiving a freshly allocated id (crypto.randomUUID does not
collide with any stroke already in the room). -/
inductive Reachable : RoomState → Prop where
  | empty : Reachable emptyRoom
  | step (st : RoomState) (sn : Sender) (c : Cmd) (h : Reachable st)
      (hfresh : ∀ col sz tl i, c = .beginStroke col sz tl i →
        ∀ s ∈ st.strokes, s.id ≠ i) :
      Reachable (handle st sn c).1

/-- The server-state invariant: stroke ids are unique, every user stack is
duplicate-free, every stacked id names a live stroke of that user, and every
live stroke's id sits on its author's stack. -/
def Inv (st : RoomState) : Prop :=
  (st.strokes.map (fun s => s.id)).Nodup ∧
  (∀ u, (lookupStack st.userStacks u).Nodup) ∧
  (∀ u i, i ∈ lookupStack st.userStacks u →
    ∃ s ∈ st.strokes, s.id = i ∧ s.userId = u ∧ s.removed = false) ∧
  (∀ s ∈ st.strokes, s.removed = false → s.id ∈ lookupStack st.userStacks s.userId)

theorem Inv_empty : Inv emptyRoom := by
  refine ⟨by simp [emptyRoom], ?_, ?_, ?_⟩
  · intro u; simp [emptyRoom, lookupStack]
  · intro u i h; simp [emptyRoom, lookupStack] at h
  · intro s hs; simp [emptyRoom] at hs

/-- Strokes of a duplicate-free room are determined by their id. -/
theorem stroke_eq_of_id {l : List Stroke} (hnd : (l.map (fun s => s.id)).Nodup)
    {s s' : Stroke} (hs : s ∈ l) (hs' : s' ∈ l) (h : s.id = s'.id) : s = s' :=
  List.inj_on_of_nodup_map hnd hs hs' h

/-- In a duplicate-free stroke list split around s, nothing else carries
s's id. -/
theorem nodup_split_id (pre : List Stroke) (s : Stroke) (post : List Stroke)
    (hnd : ((pre ++ s :: post).map (fun t => t.id)).Nodup) :
    (∀ x ∈ pre, x.id ≠ s.id) ∧ (∀ x ∈ post, x.id ≠ s.id) := by
  rw [List.map_append, List.map_cons, List.nodup_append] at hnd
  obtain ⟨h1, h2, h3⟩ := hnd
  constructor
  · intro x hx hex
    exact h3 (List.mem_map_of_mem _ hx) (by simp [hex])
  · intro x hx hex
    rw [List.nodup_cons] at h2
    exact h2.1 (hex ▸ List.mem_map_of_mem _ hx)

theorem Inv_begin (st : RoomState) (sn : Sender) (col : String) (sz : Int) (tl : Tool)
    (i : String) (hInv : Inv st) (hfr : ∀ s ∈ st.strokes, s.id ≠ i) :
    Inv (handle st sn (.beginStroke col sz tl i)).1 := by
  obtain ⟨hndS, hndK, hmemS, hmemK⟩ := hInv
  have hnotstack : ∀ u, i ∉ lookupStack st.userStacks u := by
    intro u hmem
    obtain ⟨t, htmem, htid, _, _⟩ := hmemS u i hmem
    exact hfr t htmem htid
  simp only [handle]
  refine ⟨?_, ?_, ?_, ?_⟩
  · rw [List.map_append]
    refine List.Nodup.append hndS (by simp) ?_
    intro a ha hb
    simp only [List.map_cons, List.map_nil, List.mem_singleton] at hb
    obtain ⟨t, htmem, htid⟩ := List.mem_map.mp ha
    exact hfr t htmem (htid.trans hb)
  · intro u
    by_cases hu : u = sn.uid
    · subst hu
      rw [lookupStack_pushStack_self]
      exact List.nodup_cons.mpr ⟨hnotstack _, hndK _⟩
    · rw [lookupStack_pushStack_ne _ _ _ _ hu]
      exact hndK u
  · intro u i' hi'
    by_cases hu : u = sn.uid
    · subst hu
      rw [lookupStack_pushStack_self] at hi'
      rcases List.mem_cons.mp hi' with rfl | hi'
      · exact ⟨mkUserStroke sn.uid col sz tl i', by simp [mkUserStroke], rfl, rfl, rfl⟩
      · obtain ⟨t, htmem, hrest⟩ := hmemS _ i' hi'
        exact ⟨t, List.mem_append_left _ htmem, hrest⟩
    · rw [lookupStack_pushStack_ne _ _ _ _ hu] at hi'
      obtain ⟨t, htmem, hrest⟩ := hmemS u i' hi'
      exact ⟨t, List.mem_append_left _ htmem, hrest⟩
  · intro x hx hlive
    rcases List.mem_append.mp hx with hx | hx
    · have hold := hmemK x hx hlive
      by_cases hu : x.userId = sn.uid
      · rw [hu, lookupStack_pushStack_self]
        exact List.mem_cons_of_mem _ (hu ▸ hold)
      · rw [lookupStack_pushStack_ne _ _ _ _ hu]
        exact hold
    · rw [List.mem_singleton.mp hx]
      have hgoal : i ∈ lookupStack (pushStack st.userStacks sn.uid i) sn.uid := by
        rw [lookupStack_pushStack_self]; exact List.mem_cons_self _ _
      exact hgoal

theorem Inv_addPoints (st : RoomState) (sn : Sender) (sid : String) (ps : List Point)
    (hInv : Inv st) : Inv (handle st sn (.addPoints sid ps)).1 := by
  obtain ⟨hndS, hndK, hmemS, hmemK⟩ := hInv
  rcases hfind : st.strokes.find? (fun x => x.id == sid && !x.removed) with _ | s
  · simp only [handle, hfind]
    exact ⟨hndS, hndK, hmemS, hmemK⟩
  · obtain ⟨pre, post, hsplit, hpre, hp⟩ := find?_split _ hfind
    simp only [Bool.and_eq_true, beq_iff_eq, Bool.not_eq_true'] at hp
    have hsmem : s ∈ st.strokes := by rw [hsplit]; simp
    have hnew : addPointsTo st.strokes sid (ps.take 200)
        = pre ++ { s with points := s.points ++ ps.take 200 } :: post := by
      rw [hsplit]; exact addPointsTo_split _ _ _ _ _ hpre (by simp [hp.1, hp.2])
    simp only [handle, hfind, hnew]
    refine ⟨?_, hndK, ?_, ?_⟩
    · have hmapeq : (pre ++ { s with points := s.points ++ ps.take 200 } :: post).map
          (fun t => t.id) = st.strokes.map (fun t => t.id) := by
        rw [hsplit]; simp
      rw [hmapeq]; exact hndS
    · intro u i' hi'
      obtain ⟨t, htmem, htid, htu, htlive⟩ := hmemS u i' hi'
      by_cases hts : t.id = s.id
      · have hteq : t = s := stroke_eq_of_id hndS htmem hsmem hts
        refine ⟨{ s with points := s.points ++ ps.take 200 }, by simp, ?_, ?_, ?_⟩
        · show s.id = i'; rw [← hteq]; exact htid
        · show s.userId = u; rw [← hteq]; exact htu
        · exact hp.2
      · have : t ∈ pre ∨ t ∈ post := by
          rw [hsplit] at htmem
          rcases List.mem_append.mp htmem with h | h
          · exact Or.inl h
          · rcases List.mem_cons.mp h with rfl | h
            · exact absurd rfl hts
            · exact Or.inr h
        rcases this with h | h
        · exact ⟨t, List.mem_append_left _ h, htid, htu, htlive⟩
        · exact ⟨t, by simp [h], htid, htu, htlive⟩
    · intro x hx hlive
      rcases List.mem_append.mp hx with hx | hx
      · have : x ∈ st.strokes := by rw [hsplit]; exact List.mem_append_left _ hx
        exact hmemK x this hlive
      · rcases List.mem_cons.mp hx with rfl | hx
        · have hs2 := hmemK s hsmem hp.2
          simpa using hs2
        · have : x ∈ st.strokes := by rw [hsplit]; simp [hx]
          exact hmemK x this hlive

theorem Inv_undo (st : RoomState) (sn : Sender) (u : String) (hInv : Inv st) :
    Inv (handle st sn (.undo u)).1 := by
  obtain ⟨hndS, hndK, hmemS, hmemK⟩ := hInv
  rcases hfb : st.userStacks.find? (fun q => q.1 == u) with _ | p
  · simp only [handle, hfb]
    exact ⟨hndS, hndK, hmemS, hmemK⟩
  · have hstackU : lookupStack st.userStacks u = p.2 := lookupStack_eq_of_find? _ _ _ hfb
    rcases hp2 : p.2 with _ | ⟨i, rest⟩
    · have hloop : undoLoop st.strokes p.2 = (st.strokes, [], none) := by rw [hp2]; rfl
      simp only [handle, hfb, hloop]
      refine ⟨hndS, ?_, ?_, ?_⟩
      · intro u'
        by_cases hu : u' = u
        · subst hu; rw [lookupStack_setStack_self]; exact List.nodup_nil
        · rw [lookupStack_setStack_ne _ _ _ _ hu]; exact hndK u'
      · intro u' i' hi'
        by_cases hu : u' = u
        · subst hu; rw [lookupStack_setStack_self] at hi'; simp at hi'
        · rw [lookupStack_setStack_ne _ _ _ _ hu] at hi'
          exact hmemS u' i' hi'
      · intro x hx hlive
        have hold := hmemK x hx hlive
        by_cases hu : x.userId = u
        · rw [hu, hstackU, hp2] at hold; simp at hold
        · rw [lookupStack_setStack_ne _ _ _ _ hu]; exact hold
    · have hiu : i ∈ lookupStack st.userStacks u := by rw [hstackU, hp2]; simp
      obtain ⟨t0, ht0mem, ht0id, ht0u, ht0live⟩ := hmemS u i hiu
      have hsome : (st.strokes.find? (fun x => x.id == i && !x.removed)).isSome := by
        rw [List.find?_isSome]
        exact ⟨t0, ht0mem, by simp [ht0id, ht0live]⟩
      obtain ⟨s, hfs⟩ := Option.isSome_iff_exists.mp hsome
      obtain ⟨pre, post, hsplit, hpreb, hpb⟩ := find?_split _ hfs
      simp only [Bool.and_eq_true, beq_iff_eq, Bool.not_eq_true'] at hpb
      have hsmem : s ∈ st.strokes := by rw [hsplit]; simp
      have hsu : s.userId = u := by
        have hts : t0 = s := stroke_eq_of_id hndS ht0mem hsmem (by rw [ht0id, hpb.1])
        rw [← hts]; exact ht0u
      have hnodupU : (lookupStack st.userStacks u).Nodup := hndK u
      have hinotrest : i ∉ rest := by
        rw [hstackU, hp2] at hnodupU
        exact (List.nodup_cons.mp hnodupU).1
      have hrestnd : rest.Nodup := by
        rw [hstackU, hp2] at hnodupU
        exact (List.nodup_cons.mp hnodupU).2
      have hloop : undoLoop st.strokes p.2 =
          (pre ++ { s with removed := true } :: post, rest, some i) := by
        rw [hp2]
        simp only [undoLoop, hfs, Option.isSome_some, if_true]
        rw [hsplit, markRemoved_split _ _ _ _ hpreb (by simp [hpb.1, hpb.2])]
      have hidsplit := nodup_split_id pre s post (by rw [← hsplit]; exact hndS)
      simp only [handle, hfb, hloop]
      refine ⟨?_, ?_, ?_, ?_⟩
      · have hmapeq : (pre ++ { s with removed := true } :: post).map (fun t => t.id)
            = st.strokes.map (fun t => t.id) := by rw [hsplit]; simp
        rw [hmapeq]; exact hndS
      · intro u'
        by_cases hu : u' = u
        · subst hu; rw [lookupStack_setStack_self]; exact hrestnd
        · rw [lookupStack_setStack_ne _ _ _ _ hu]; exact hndK u'
      · intro u' i' hi'
        by_cases hu : u' = u
        · subst hu
          rw [lookupStack_setStack_self] at hi'
          obtain ⟨t, htmem, htid, htu, htlive⟩ := hmemS u' i'
            (by rw [hstackU, hp2]; exact List.mem_cons_of_mem _ hi')
          have htns : t.id ≠ s.id := by
            intro he
            have hts : t = s := stroke_eq_of_id hndS htmem hsmem he
            rw [hts, hpb.1] at htid
            exact hinotrest (htid ▸ hi')
          refine ⟨t, ?_, htid, htu, htlive⟩
          rw [hsplit] at htmem
          rcases List.mem_append.mp htmem with h | h
          · exact List.mem_append_left _ h
          · rcases List.mem_cons.mp h with rfl | h
            · exact absurd rfl htns
            · simp [h]
        · rw [lookupStack_setStack_ne _ _ _ _ hu] at hi'
          obtain ⟨t, htmem, htid, htu, htlive⟩ := hmemS u' i' hi'
          have htns : t.id ≠ s.id := by
            intro he
            have hts : t = s := stroke_eq_of_id hndS htmem hsmem he
            exact hu (by rw [← htu, hts, hsu])
          refine ⟨t, ?_, htid, htu, htlive⟩
          rw [hsplit] at htmem
          rcases List.mem_append.mp htmem with h | h
          · exact List.mem_append_left _ h
          · rcases List.mem_cons.mp h with rfl | h
            · exact absurd rfl htns
            · simp [h]
      · intro x hx hlive
        rcases List.mem_append.mp hx with hx | hx
        · have hxmem : x ∈ st.strokes := by rw [hsplit]; exact List.mem_append_left _ hx
          have hold := hmemK x hxmem hlive
          by_cases hu : x.userId = u
          · rw [hu, lookupStack_setStack_self]
            rw [hu, hstackU, hp2] at hold
            rcases List.mem_cons.mp hold with he | he
            · exact absurd (he.trans hpb.1.symm) (hidsplit.1 x hx)
            · exact he
          · rw [lookupStack_setStack_ne _ _ _ _ hu]
            exact hold
        · rcases List.mem_cons.mp hx with rfl | hx
          · simp at hlive
          · have hxmem : x ∈ st.strokes := by rw [hsplit]; simp [hx]
            have hold := hmemK x hxmem hlive
            by_cases hu : x.userId = u
            · rw [hu, lookupStack_setStack_self]
              rw [hu, hstackU, hp2] at hold
              rcases List.mem_cons.mp hold with he | he
              · exact absurd (he.trans hpb.1.symm) (hidsplit.2 x hx)
              · exact he
            · rw [lookupStack_setStack_ne _ _ _ _ hu]
              exact hold

theorem Inv_redo (st : RoomState) (sn : Sender) (u : String) (hInv : Inv st) :
    Inv (handle st sn (.redo u)).1 := by
  obtain ⟨hndS, hndK, hmemS, hmemK⟩ := hInv
  rcases hfind : st.strokes.reverse.find? (fun x => x.userId == u && x.removed) with _ | s
  · simp only [handle, hfind]
    exact ⟨hndS, hndK, hmemS, hmemK⟩
  · obtain ⟨rpre, rpost, hrsplit, hrpre, hrp⟩ := find?_split _ hfind
    simp only [Bool.and_eq_true, beq_iff_eq] at hrp
    have hsmem : s ∈ st.strokes := by
      rw [← List.mem_reverse, hrsplit]; simp
    have hsplit : st.strokes = rpost.reverse ++ s :: rpre.reverse := by
      have hrev := congrArg List.reverse hrsplit
      simpa using hrev
    have hmr : markRestored st.strokes.reverse u
        = rpre ++ { s with removed := false } :: rpost := by
      rw [hrsplit]; exact markRestored_split _ _ _ _ hrpre (by simp [hrp.1, hrp.2])
    have hnew : (markRestored st.strokes.reverse u).reverse
        = rpost.reverse ++ { s with removed := false } :: rpre.reverse := by
      rw [hmr]; simp
    have hidnostack : ∀ u', s.id ∉ lookupStack st.userStacks u' := by
      intro u' hmem
      obtain ⟨t, htmem, htid, _, htlive⟩ := hmemS u' s.id hmem
      have hts : t = s := stroke_eq_of_id hndS htmem hsmem htid
      rw [hts] at htlive
      simp [hrp.2] at htlive
    have hidsplit := nodup_split_id rpost.reverse s rpre.reverse
      (by rw [← hsplit]; exact hndS)
    simp only [handle, hfind, hnew]
    refine ⟨?_, ?_, ?_, ?_⟩
    · have hmapeq : (rpost.reverse ++ { s with removed := false } :: rpre.reverse).map
          (fun t => t.id) = st.strokes.map (fun t => t.id) := by rw [hsplit]; simp
      rw [hmapeq]; exact hndS
    · intro u'
      by_cases hu : u' = u
      · subst hu
        rw [lookupStack_pushStack_self]
        exact List.nodup_cons.mpr ⟨hidnostack u', hndK u'⟩
      · rw [lookupStack_pushStack_ne _ _ _ _ hu]; exact hndK u'
    · intro u' i' hi'
      by_cases hu : u' = u
      · subst hu
        rw [lookupStack_pushStack_self] at hi'
        rcases List.mem_cons.mp hi' with rfl | hi'
        · exact ⟨{ s with removed := false }, by simp, rfl, by simpa using hrp.1, rfl⟩
        · obtain ⟨t, htmem, htid, htu, htlive⟩ := hmemS u' i' hi'
          have hts : t ≠ s := by
            intro he; rw [he] at htlive; simp [hrp.2] at htlive
          refine ⟨t, ?_, htid, htu, htlive⟩
          rw [hsplit] at htmem
          rcases List.mem_append.mp htmem with h | h
          · exact List.mem_append_left _ h
          · rcases List.mem_cons.mp h with h2 | h2
            · exact absurd h2 hts
            · simp [h2]
      · rw [lookupStack_pushStack_ne _ _ _ _ hu] at hi'
        obtain ⟨t, htmem, htid, htu, htlive⟩ := hmemS u' i' hi'
        have hts : t ≠ s := by
          intro he; rw [he] at htlive; simp [hrp.2] at htlive
        refine ⟨t, ?_, htid, htu, htlive⟩
        rw [hsplit] at htmem
        rcases List.mem_append.mp htmem with h | h
        · exact List.mem_append_left _ h
        · rcases List.mem_cons.mp h with h2 | h2
          · exact absurd h2 hts
          · simp [h2]
    · intro x hx hlive
      rcases List.mem_append.mp hx with hx | hx
      · have hxmem : x ∈ st.strokes := by rw [hsplit]; exact List.mem_append_left _ hx
        have hold := hmemK x hxmem hlive
        by_cases hu : x.userId = u
        · rw [hu, lookupStack_pushStack_self]
          exact List.mem_cons_of_mem _ (hu ▸ hold)
        · rw [lookupStack_pushStack_ne _ _ _ _ hu]; exact hold
      · rcases List.mem_cons.mp hx with rfl | hx
        · have hsu : ({ s with removed := false } : Stroke).userId = u := hrp.1
          rw [hsu, lookupStack_pushStack_self]
          exact List.mem_cons_self _ _
        · have hxmem : x ∈ st.strokes := by rw [hsplit]; simp [hx]
          have hold := hmemK x hxmem hlive
          by_cases hu : x.userId = u
          · rw [hu, lookupStack_pushStack_self]
            exact List.mem_cons_of_mem _ (hu ▸ hold)
          · rw [lookupStack_pushStack_ne _ _ _ _ hu]; exact hold

/-- Every message handling turn preserves the invariant, begin_stroke under
freshness of the allocated id. -/
theorem Inv_step (st : RoomState) (sn : Sender) (c : Cmd) (hInv : Inv st)
    (hfresh : ∀ col sz tl i, c = .beginStroke col sz tl i →
      ∀ s ∈ st.strokes, s.id ≠ i) :
    Inv (handle st sn c).1 := by
  cases c with
  | beginStroke col sz tl i => exact Inv_begin st sn col sz tl i hInv (hfresh col sz tl i rfl)
  | addPoints sid ps => exact Inv_addPoints st sn sid ps hInv
  | endStroke sid => exact hInv
  | undo u => exact Inv_undo st sn u hInv
  | redo u => exact Inv_redo st sn u hInv
  | clear =>
    refine ⟨by simp [handle], ?_, ?_, ?_⟩
    · intro u; simp [handle, lookupStack]
    · intro u i h; simp [handle, lookupStack] at h
    · intro s hs; simp [handle] at hs

theorem Inv_reachable (st : RoomState) (h : Reachable st) : Inv st := by
  induction h with
  | empty => exact Inv_empty
  | step st' sn c _ hfresh ih => exact Inv_step st' sn c ih hfresh

/-- C8: in every room state reachable from the empty room by inbound messages
with freshly allocated stroke ids, a stroke is non-tombstoned iff its id
occurs exactly once on its author's stack, every stacked id names a stroke of
that user in the room, and consequently undo's continue-popping branch is
never taken: the first pop always hits a live stroke. -/
theorem reachable_stack_invariant (st : RoomState) (h : Reachable st) :
    (∀ s ∈ st.strokes,
      s.removed = false ↔ (lookupStack st.userStacks s.userId).count s.id = 1) ∧
    (∀ u i, i ∈ lookupStack st.userStacks u →
      ∃ s ∈ st.strokes, s.id = i ∧ s.userId = u) ∧
    (∀ u i rest, lookupStack st.userStacks u = i :: rest →
      undoLoop st.strokes (i :: rest) = (markRemoved st.strokes i, rest, some i)) := by
  obtain ⟨hndS, hndK, hmemS, hmemK⟩ := Inv_reachable st h
  refine ⟨?_, ?_, ?_⟩
  · intro s hs
    constructor
    · intro hlive
      exact List.count_eq_one_of_mem (hndK s.userId) (hmemK s hs hlive)
    · intro hcount
      have hmem : s.id ∈ lookupStack st.userStacks s.userId := by
        have hpos : 0 < (lookupStack st.userStacks s.userId).count s.id := by
          rw [hcount]; exact Nat.one_pos
        exact List.count_pos_iff.mp hpos
      obtain ⟨t, htmem, htid, htu, htlive⟩ := hmemS s.userId s.id hmem
      have hts : t = s := stroke_eq_of_id hndS htmem hs htid
      rw [← hts]; exact htlive
  · intro u i hi
    obtain ⟨t, ht, h1, h2, _⟩ := hmemS u i hi
    exact ⟨t, ht, h1, h2⟩
  · intro u i rest hstack
    have hi : i ∈ lookupStack st.userStacks u := by rw [hstack]; simp
    obtain ⟨t, htmem, htid, htu, htlive⟩ := hmemS u i hi
    have hsome : (st.strokes.find? (fun x => x.id == i && !x.removed)).isSome := by
      rw [List.find?_isSome]
      exact ⟨t, htmem, by simp [htid, htlive]⟩
    simp only [undoLoop, hsome, if_true]

/-- The room after a single begin_stroke in the empty room. -/
def roomA : RoomState := (handle emptyRoom sn1 (mkBegin "a")).1

/-- Witness for C8: the one-stroke room is reachable and satisfies every part
of the invariant at its stroke and stack. -/
theorem reachable_stack_invariant_witness :
    ((mkStroke "a").removed = false ↔
      (lookupStack roomA.userStacks (mkStroke "a").userId).count (mkStroke "a").id = 1) ∧
    (∃ s ∈ roomA.strokes, s.id = "a" ∧ s.userId = "u") ∧
    undoLoop roomA.strokes ("a" :: []) = (markRemoved roomA.strokes "a", [], some "a") :=
  have hre : Reachable roomA :=
    Reachable.step emptyRoom sn1 (mkBegin "a") Reachable.empty
      (fun col sz tl i hc s hs => by simp [emptyRoom] at hs)
  ⟨(reachable_stack_invariant roomA hre).1 (mkStroke "a") (by decide),
   (reachable_stack_invariant roomA hre).2.1 "u" "a" (by decide),
   (reachable_stack_invariant roomA hre).2.2 "u" "a" [] (by decide)⟩

end RealtimeCanvas
